import Mathlib

/-!
Shallow embedding of the algorithmic core of the payrue-staking-contracts
repository:

* `src/tools/utils.py` — the batched event-log fetcher `get_events`, the
  two retry helpers `get_event_batch_with_retries` / `retryable` with
  `exponential_sleep`, and the timestamp bisection `get_closest_block`;
* `src/python/staking_rewarder/models/types.py` — the `Uint256` SQLAlchemy
  column type.

Modelling conventions: Python integers are `Int` (they are unbounded, so no
wrap-around is modelled); raised exceptions become `Except`/sum-type error
results; the chain RPC collaborators (`event.getLogs`, `web3.eth.get_block`)
are explicit function parameters; `time.sleep` is modelled by recording the
requested duration (in whole seconds — all durations that occur are whole)
in a list; every RPC call performed is recorded in a trace list so that
call-count properties are statable.  The `while` loops of the Python source
are written as fuel-indexed or well-founded recursions; an `outOfFuel`
result marks runs longer than the supplied fuel and never occurs once the
fuel is at least the size of the searched interval.
-/

/-- Wire view of a block header: `get_closest_block` only reads the
`number` and `timestamp` fields of the web3 `BlockData` dict. -/
structure BlockData where
  number : Int
  timestamp : Int
  deriving DecidableEq, Repr

/-- Outcome of `get_closest_block` (utils.py lines 148-197): a returned
block, the `LookupError` of line 191, a propagated RPC failure from
`web3.eth.get_block` (modelled: the collaborator returned no block), or
fuel exhaustion (a modelling artifact for the unbounded `while`). -/
inductive ClosestResult where
  | found (b : BlockData)
  | lookupError
  | rpcError
  | outOfFuel
  deriving DecidableEq, Repr

/-- Lines 190-197 of utils.py: after the bisection loop, raise `LookupError`
if no candidate was recorded; otherwise, when `not_before` is set and the
best candidate is strictly before the wanted timestamp, fetch and return
the block one number higher, else return the best candidate.  The second
component lists the block numbers fetched by this step. -/
def bisect_finish (getBlock : Int → Option BlockData) (wanted_timestamp : Int)
    (not_before : Bool) (closest_block : Option BlockData) : ClosestResult × List Int :=
  match closest_block with
  | none => (.lookupError, [])
  | some cb =>
    if not_before = true ∧ cb.timestamp < wanted_timestamp then
      match getBlock (cb.number + 1) with
      | some b => (.found b, [cb.number + 1])
      | none => (.rpcError, [cb.number + 1])
    else (.found cb, [])

/-- Lines 161-188 of utils.py: the bisection `while` loop of
`get_closest_block`, fuel-indexed.  State: current `start_block_number`,
`end_block_number`, `closest_block`, `closest_diff`.  Python `//` is floor
division, i.e. `Int.fdiv`.  The narrowing uses `block.number` (not the
requested midpoint), exactly as the source does.  The second component is
the trace of block numbers fetched, in fetch order. -/
def bisect_loop (getBlock : Int → Option BlockData) (wanted_timestamp : Int)
    (not_before : Bool) :
    Nat → Int → Int → Option BlockData → Int → ClosestResult × List Int
  | fuel, start_block_number, end_block_number, closest_block, closest_diff =>
    if start_block_number ≤ end_block_number then
      match fuel with
      | 0 => (.outOfFuel, [])
      | f + 1 =>
        let target_block_number := (start_block_number + end_block_number).fdiv 2
        match getBlock target_block_number with
        | none => (.rpcError, [target_block_number])
        | some block =>
          let diff := block.timestamp - wanted_timestamp
          let closest2 := if |diff| < closest_diff then some block else closest_block
          let cd2 := if |diff| < closest_diff then |diff| else closest_diff
          if block.timestamp > wanted_timestamp then
            let r := bisect_loop getBlock wanted_timestamp not_before f
              start_block_number (block.number - 1) closest2 cd2
            (r.1, target_block_number :: r.2)
          else if block.timestamp < wanted_timestamp then
            let r := bisect_loop getBlock wanted_timestamp not_before f
              (block.number + 1) end_block_number closest2 cd2
            (r.1, target_block_number :: r.2)
          else (.found block, [target_block_number])
    else
      bisect_finish getBlock wanted_timestamp not_before closest_block

/-- Lines 148-197 of utils.py: `get_closest_block`.  `latest_block_number`
stands for `web3.eth.block_number`; the search range is
`[1, latest_block_number]`, the initial `closest_diff` sentinel is
`2^256 - 1`.  `fuel` bounds the number of loop iterations (any fuel at
least `latest_block_number` suffices for a well-numbered chain). -/
def get_closest_block (getBlock : Int → Option BlockData) (latest_block_number : Int)
    (wanted_timestamp : Int) (not_before : Bool) (fuel : Nat) :
    ClosestResult × List Int :=
  bisect_loop getBlock wanted_timestamp not_before fuel 1 latest_block_number none
    (2 ^ 256 - 1)

/-- A total chain collaborator: block `n` exists for every `n` and carries
timestamp `T n`. -/
def chainOf (T : Int → Int) : Int → Option BlockData :=
  fun n => some ⟨n, T n⟩

/-- Lines 69-84 of utils.py: the batching `while` loop of `get_events`.
`fetch a b` stands for the (already retry-wrapped) fetch of all event
records in the inclusive block range `[a, b]`.  Returns the concatenated
records together with the list of `(from, to)` sub-ranges fetched, in
order.  `batch_size` is a natural number: the Python call sites always
supply a positive one, and with a negative one the source loop would not
terminate. -/
def get_events_loop {α : Type} (fetch : Int → Int → List α) (batch_size : Nat)
    (to_block : Int) (batch_from_block : Int) : List α × List (Int × Int) :=
  if _h : batch_from_block ≤ to_block then
    let batch_to_block := min (batch_from_block + (batch_size : Int)) to_block
    let rest := get_events_loop fetch batch_size to_block (batch_to_block + 1)
    (fetch batch_from_block batch_to_block ++ rest.1,
      (batch_from_block, batch_to_block) :: rest.2)
  else ([], [])
termination_by (to_block + 1 - batch_from_block).toNat
decreasing_by omega

/-- The `ValueError` message of utils.py line 65. -/
def invalid_range_message (to_block from_block : Int) : String :=
  "to_block " ++ toString to_block ++ " is smaller than from_block "
    ++ toString from_block

/-- Lines 55-85 of utils.py: `get_events`.  Rejects `to_block < from_block`
with the `ValueError` of line 65 before performing any fetch, otherwise
runs the batching loop.  Second component: the fetch calls performed. -/
def get_events {α : Type} (fetch : Int → Int → List α) (from_block to_block : Int)
    (batch_size : Nat) : Except String (List α) × List (Int × Int) :=
  if to_block < from_block then
    (.error (invalid_range_message to_block from_block), [])
  else
    let r := get_events_loop fetch batch_size to_block from_block
    (.ok r.1, r.2)

/-- `rangesPartitionFrom lo hi rs` holds exactly when the inclusive ranges
`rs`, taken in order, tile `[lo, hi]` exactly: each range starts where the
previous one ended plus one, is non-empty, and the last one ends at `hi`. -/
def rangesPartitionFrom : Int → Int → List (Int × Int) → Bool
  | lo, hi, [] => lo == hi + 1
  | lo, hi, (a, b) :: rest =>
    a == lo && decide (a ≤ b) && rangesPartitionFrom (b + 1) hi rest

/-- Result of a run of one of the two retry helpers: the final outcome, the
sequence of sleep durations requested (seconds, in order), and the list of
0-based invocation indices of the wrapped operation, in call order. -/
structure RetryRun (ε α : Type) where
  result : Except ε α
  sleeps : List Nat
  invoked : List Nat

/-- Lines 105-107 of utils.py: `exponential_sleep(attempt)` sleeps for
`min(2 ** attempt, max_sleep_time)` seconds (the source default for
`max_sleep_time` is 256.0; both call sites use the default).  Modelled as
returning the duration slept. -/
def exponential_sleep (attempt : Nat) (max_sleep_time : Nat) : Nat :=
  min (2 ^ attempt) max_sleep_time

/-- Lines 113-129 of utils.py: the `while True` loop of the `retryable`
decorator, with 0-based `attempt` counter.  The wrapped operation is
modelled as `op : Nat → Except ε α`, giving the outcome of its i-th
invocation (0-based).  On failure with `attempt >= max_attempts` the last
error is re-raised; otherwise the loop sleeps `exponential_sleep attempt`
and retries with `attempt + 1`. -/
def retryable_loop {ε α : Type} (op : Nat → Except ε α) (max_attempts : Nat)
    (attempt : Nat) : RetryRun ε α :=
  match op attempt with
  | .ok v => ⟨.ok v, [], [attempt]⟩
  | .error e =>
    if h : max_attempts ≤ attempt then ⟨.error e, [], [attempt]⟩
    else
      let r := retryable_loop op max_attempts (attempt + 1)
      ⟨r.result, exponential_sleep attempt 256 :: r.sleeps, attempt :: r.invoked⟩
termination_by max_attempts - attempt
decreasing_by omega

/-- Lines 110-131 of utils.py: `retryable(max_attempts=...)` applied to an
operation (source default `max_attempts = 10`). -/
def retryable {ε α : Type} (op : Nat → Except ε α) (max_attempts : Nat) :
    RetryRun ε α :=
  retryable_loop op max_attempts 0

/-- Lines 88-102 of utils.py: the `while True` loop of
`get_event_batch_with_retries`.  `retries` counts down from
`initial_retries`; on failure with `retries <= 0` the last error is
re-raised, otherwise `retries` is decremented and the loop sleeps
`exponential_sleep(initial_retries - retries)` — note the decremented
value, so the first sleep uses exponent 1, not 0.  `n` is the 0-based
index of the next invocation. -/
def get_event_batch_loop {ε α : Type} (op : Nat → Except ε α)
    (initial_retries retries n : Nat) : RetryRun ε α :=
  match op n with
  | .ok v => ⟨.ok v, [], [n]⟩
  | .error e =>
    if h : retries = 0 then ⟨.error e, [], [n]⟩
    else
      let r := get_event_batch_loop op initial_retries (retries - 1) (n + 1)
      ⟨r.result, exponential_sleep (initial_retries - (retries - 1)) 256 :: r.sleeps,
        n :: r.invoked⟩
termination_by retries
decreasing_by omega

/-- Lines 88-102 of utils.py: `get_event_batch_with_retries` with its
`retries` parameter (source default 10). -/
def get_event_batch_with_retries {ε α : Type} (op : Nat → Except ε α)
    (retries : Nat) : RetryRun ε α :=
  get_event_batch_loop op retries retries 0

/-- types.py line 9: `MAX_UINT256 = 2**256 - 1`. -/
def MAX_UINT256 : Int := 2 ^ 256 - 1

/-- The message of the `raise` on types.py line 27.  (The source `raise`s a
plain `str`, which in Python 3 itself raises `TypeError: exceptions must
derive from BaseException`; either way the call fails and produces no
value, which is what the `Except.error` models.) -/
def uint256_range_message (value : Int) : String :=
  "Value " ++ toString value ++ " is out of range for UINT256"

/-- types.py lines 24-28: `_coerce_and_validate_uint256`.  `int(value)` of
an integral input is the integer itself; out-of-range values make the call
fail rather than return. -/
def coerce_and_validate_uint256 (value : Int) : Except String Int :=
  if value < 0 ∨ value > MAX_UINT256 then .error (uint256_range_message value)
  else .ok value

/-- types.py lines 14-17: `process_result_value` coerces a non-NULL value
and passes NULL through. -/
def process_result_value (value : Option Int) : Except String (Option Int) :=
  match value with
  | some v => (coerce_and_validate_uint256 v).map some
  | none => .ok none

/-- types.py lines 19-22: `process_bind_param` coerces `Decimal` inputs
(`is_decimal = true`, with `value` the integral part that `int()` would
produce) and passes any other value through unchanged. -/
def process_bind_param (is_decimal : Bool) (value : Int) : Except String Int :=
  if is_decimal = true then coerce_and_validate_uint256 value else .ok value

/-! ### Concrete instances used by witnesses and counterexamples -/

/-- Monotone (non-strict) timestamps `10, 10, 10, 20` on blocks 1-4. -/
def exT4 : Int → Int := fun n => if n ≤ 3 then 10 else 20

/-- A timestamp assignment whose distance to target 0 equals the
`closest_diff` sentinel `2^256 - 1`. -/
def exTbig : Int → Int := fun _ => 2 ^ 256 - 1

/-- Linear timestamps `T n = 1000 * n`. -/
def linT : Int → Int := fun n => 1000 * n

/-- Strictly increasing timestamps `T n = 100 * n`. -/
def stepT : Int → Int := fun n => 100 * n

/-- A finite chain of 2 blocks with timestamps `10 * n`: block 3 does not
exist, so fetching it fails. -/
def chain2 : Int → Option BlockData :=
  fun n => if 1 ≤ n ∧ n ≤ 2 then some ⟨n, 10 * n⟩ else none

/-- An operation failing exactly once (invocation 0) and then succeeding. -/
def ex_op1 : Nat → Except Nat Nat := fun i => if i = 0 then .error 0 else .ok 1

/-- An operation failing exactly twice (invocations 0 and 1, with error
value the invocation index) and then returning 42. -/
def ex_op3 : Nat → Except Nat Nat := fun i => if i < 2 then .error i else .ok 42

/-- An operation failing on every invocation with error 7. -/
def ex_fail : Nat → Except Nat Nat := fun _ => .error 7

/-- A fetch collaborator returning no records on any range (trivially
concatenative over adjacent ranges). -/
def emptyFetch : Int → Int → List Int := fun _ _ => []

/-- A fetch collaborator returning one record per block of the range,
labelled by block number; concatenative over adjacent ranges. -/
def intsFrom (a : Int) : Nat → List Int
  | 0 => []
  | n + 1 => a :: intsFrom (a + 1) n

/-- `blockRangeFetch a b` lists the blocks of `[a, b]` in order. -/
def blockRangeFetch (a b : Int) : List Int := intsFrom a (b + 1 - a).toNat

/-! ### Unfolding lemmas for the loop definitions -/

theorem get_events_loop_exit {α : Type} (fetch : Int → Int → List α) (batch_size : Nat)
    (to_block cursor : Int) (h : ¬ cursor ≤ to_block) :
    get_events_loop fetch batch_size to_block cursor = ([], []) := by
  rw [get_events_loop]
  simp [h]

theorem get_events_loop_step {α : Type} (fetch : Int → Int → List α) (batch_size : Nat)
    (to_block cursor : Int) (h : cursor ≤ to_block) :
    get_events_loop fetch batch_size to_block cursor =
      (fetch cursor (min (cursor + (batch_size : Int)) to_block) ++
        (get_events_loop fetch batch_size to_block
          (min (cursor + (batch_size : Int)) to_block + 1)).1,
       (cursor, min (cursor + (batch_size : Int)) to_block) ::
        (get_events_loop fetch batch_size to_block
          (min (cursor + (batch_size : Int)) to_block + 1)).2) := by
  rw [get_events_loop]
  simp [h]

/-! ### Claim C5 — invalid range rejected before any fetch -/

/-- Claim C5: for every `from_block`, `to_block` with `to_block < from_block`,
`get_events` fails with the invalid-range `ValueError` synchronously and the
trace of fetch calls performed is empty: no RPC call is made and no records
are produced. -/
theorem claim_C5_invalid_range {α : Type} (fetch : Int → Int → List α)
    (from_block to_block : Int) (batch_size : Nat) (h : to_block < from_block) :
    get_events fetch from_block to_block batch_size
      = (.error (invalid_range_message to_block from_block), []) := by
  simp [get_events, h]

/-- Witness for C5 at `from_block = 5`, `to_block = 3`. -/
theorem claim_C5_witness :
    get_events emptyFetch 5 3 1000
      = (.error (invalid_range_message 3 5), []) :=
  claim_C5_invalid_range emptyFetch 5 3 1000 (by decide)

/-! ### Claim C9 — Uint256 out-of-range handling -/

/-- Claim C9 counterexample: the claim says an integer outside
`[0, 2^256 - 1]` is clamped into range, i.e. a stored/returned value inside
the range is produced.  At input `-1` both `_coerce_and_validate_uint256`
and `process_result_value` produce no value at all: the call errors out
(the source line 27 even `raise`s a plain `str`, which in Python 3 raises
`TypeError`; either way nothing is returned). -/
theorem claim_C9_counterexample :
    coerce_and_validate_uint256 (-1)
        = .error (uint256_range_message (-1))
      ∧ process_result_value (some (-1))
        = .error (uint256_range_message (-1)) := by
  constructor <;> rfl

/-- Claim C9 (amended): values inside `[0, 2^256 - 1]` pass through the
`Uint256` coercion unchanged (hence every successfully stored/returned
value lies in the 256-bit unsigned range), while values outside the range
are rejected with an out-of-range error — they are never clamped. -/
theorem claim_C9_amended (value : Int) :
    (0 ≤ value ∧ value ≤ MAX_UINT256 →
        coerce_and_validate_uint256 value = .ok value
      ∧ process_bind_param true value = .ok value
      ∧ process_result_value (some value) = .ok (some value))
    ∧ (value < 0 ∨ value > MAX_UINT256 →
        coerce_and_validate_uint256 value = .error (uint256_range_message value)
      ∧ process_bind_param true value = .error (uint256_range_message value)
      ∧ process_result_value (some value)
          = .error (uint256_range_message value)) := by
  constructor
  · intro hv
    have hno : ¬ (value < 0 ∨ value > MAX_UINT256) := by omega
    simp [coerce_and_validate_uint256, process_bind_param, process_result_value,
      hno, Except.map]
  · intro hv
    simp [coerce_and_validate_uint256, process_bind_param, process_result_value,
      hv, Except.map]

/-- Witness for C9 (amended) at the in-range input 5 and the out-of-range
input `-1`. -/
theorem claim_C9_witness :
    coerce_and_validate_uint256 5 = .ok 5
    ∧ coerce_and_validate_uint256 (-1) = .error (uint256_range_message (-1)) :=
  ⟨((claim_C9_amended 5).1 (by norm_num [MAX_UINT256])).1,
   ((claim_C9_amended (-1)).2 (by norm_num)).1⟩

/-! ### Claim C1 — the batching loop partitions the range -/

theorem get_events_loop_spec {α : Type} (fetch : Int → Int → List α)
    (batch_size : Nat) (to_block : Int)
    (hconcat : ∀ a m b : Int, a ≤ m → m < b → fetch a b = fetch a m ++ fetch (m + 1) b) :
    ∀ (n : Nat) (cursor : Int), cursor ≤ to_block → to_block + 1 - cursor ≤ (n : Int) →
      (get_events_loop fetch batch_size to_block cursor).1 = fetch cursor to_block
      ∧ rangesPartitionFrom cursor to_block
          (get_events_loop fetch batch_size to_block cursor).2 = true
      ∧ ((get_events_loop fetch batch_size to_block cursor).2.all
          (fun p => decide (p.2 - p.1 ≤ (batch_size : Int)))) = true := by
  intro n
  induction n with
  | zero => intro cursor hc hn; exfalso; omega
  | succ n ih =>
    intro cursor hc hn
    rw [get_events_loop_step fetch batch_size to_block cursor hc]
    have hbs0 : (0 : Int) ≤ (batch_size : Int) := by positivity
    set M := min (cursor + (batch_size : Int)) to_block with hM
    have hbt1 : cursor ≤ M := by omega
    have hbt2 : M ≤ to_block := by omega
    have hwidth : M - cursor ≤ (batch_size : Int) := by omega
    rcases eq_or_lt_of_le hbt2 with heq | hlt
    · rw [heq]
      rw [get_events_loop_exit fetch batch_size to_block (to_block + 1) (by omega)]
      refine ⟨by simp, ?_, ?_⟩
      · simp [rangesPartitionFrom]
        omega
      · simp
        omega
    · have ihs := ih (M + 1) (by omega) (by omega)
      obtain ⟨e1, e2, e3⟩ := ihs
      refine ⟨?_, ?_, ?_⟩
      · rw [e1, ← hconcat cursor M to_block hbt1 hlt]
      · simp [rangesPartitionFrom, e2]
        omega
      · simp
        refine ⟨by omega, ?_⟩
        simpa using e3

/-- Claim C1: for `from_block ≤ to_block` and `batch_size ≥ 1`, the
sub-ranges fetched by `get_events` exactly partition
`[from_block, to_block]` — no gaps, no overlaps, in increasing order —
each sub-range satisfying `to - from ≤ batch_size` (i.e. covering at most
`batch_size + 1` blocks), and, provided the collaborator `fetch` is
concatenative over adjacent ranges, the concatenation of the per-range
records equals the single unbatched fetch over the full range. -/
theorem claim_C1_partition {α : Type} (fetch : Int → Int → List α)
    (from_block to_block : Int) (batch_size : Nat)
    (hrange : from_block ≤ to_block) (_hbs : 1 ≤ batch_size)
    (hconcat : ∀ a m b : Int, a ≤ m → m < b → fetch a b = fetch a m ++ fetch (m + 1) b) :
    (get_events fetch from_block to_block batch_size).1
        = .ok (fetch from_block to_block)
    ∧ rangesPartitionFrom from_block to_block
        (get_events fetch from_block to_block batch_size).2 = true
    ∧ ((get_events fetch from_block to_block batch_size).2.all
        (fun p => decide (p.2 - p.1 ≤ (batch_size : Int)))) = true := by
  have hspec := get_events_loop_spec fetch batch_size to_block hconcat
    (to_block + 1 - from_block).toNat from_block hrange (by omega)
  have hnot : ¬ to_block < from_block := by omega
  simp only [get_events, if_neg hnot]
  exact ⟨by simp [hspec.1], hspec.2.1, hspec.2.2⟩

/-- Witness for C1: range `[0, 5]`, batch size 2, with the per-block
fetch collaborator; the fetched sub-ranges are `(0,2), (3,5)` and the
records are those of a single fetch of `[0, 5]`. -/
theorem claim_C1_witness :
    (get_events blockRangeFetch 0 5 2).1 = .ok (blockRangeFetch 0 5)
    ∧ rangesPartitionFrom 0 5 (get_events blockRangeFetch 0 5 2).2 = true
    ∧ ((get_events blockRangeFetch 0 5 2).2.all
        (fun p => decide (p.2 - p.1 ≤ ((2 : Nat) : Int)))) = true :=
  claim_C1_partition blockRangeFetch 0 5 2 (by decide) (by decide)
    (fun a m b h1 h2 => by
      unfold blockRangeFetch
      have hsplit : (b + 1 - a).toNat = (m + 1 - a).toNat + (b + 1 - (m + 1)).toNat := by
        omega
      rw [hsplit]
      have : ∀ (p q : Nat) (x : Int), intsFrom x (p + q) = intsFrom x p ++ intsFrom (x + p) q := by
        intro p
        induction p with
        | zero => intro q x; simp [intsFrom]
        | succ p ihp =>
          intro q x
          have : p + 1 + q = (p + q) + 1 := by omega
          rw [this]
          simp only [intsFrom, ihp q (x + 1), List.cons_append]
          have hx : x + (↑p + 1) = x + 1 + ↑p := by omega
          simp [hx]
      rw [this]
      have hm : a + ((m + 1 - a).toNat : Int) = m + 1 := by omega
      rw [hm])

/-! ### Retry helpers: generalized run lemmas -/

theorem retryable_loop_ok {ε α : Type} (op : Nat → Except ε α) (errs : Nat → ε)
    (v : α) (k max_attempts : Nat)
    (hf : ∀ i, i < k → op i = .error (errs i)) (hs : op k = .ok v)
    (hkm : k < max_attempts) :
    ∀ (d a : Nat), a + d = k →
      retryable_loop op max_attempts a =
        ⟨.ok v, (List.range' a d).map (fun i => exponential_sleep i 256),
          List.range' a (d + 1)⟩ := by
  intro d
  induction d with
  | zero =>
    intro a ha
    have hak : a = k := by omega
    subst hak
    rw [retryable_loop, hs]
    simp [List.range'_one]
  | succ d ihd =>
    intro a ha
    have h1 : a < k := by omega
    rw [retryable_loop, hf a h1]
    simp only []
    rw [dif_neg (by omega : ¬ max_attempts ≤ a)]
    rw [ihd (a + 1) (by omega)]
    simp [List.range'_succ]

theorem retryable_loop_fail {ε α : Type} (op : Nat → Except ε α) (errs : Nat → ε)
    (max_attempts : Nat) (hf : ∀ i, op i = .error (errs i)) :
    ∀ (d a : Nat), a + d = max_attempts →
      retryable_loop op max_attempts a =
        ⟨.error (errs max_attempts),
          (List.range' a d).map (fun i => exponential_sleep i 256),
          List.range' a (d + 1)⟩ := by
  intro d
  induction d with
  | zero =>
    intro a ha
    have hak : a = max_attempts := by omega
    rw [retryable_loop, hf a]
    simp only []
    rw [dif_pos (by omega : max_attempts ≤ a)]
    rw [hak]
    simp [List.range'_one]
  | succ d ihd =>
    intro a ha
    rw [retryable_loop, hf a]
    simp only []
    rw [dif_neg (by omega : ¬ max_attempts ≤ a)]
    rw [ihd (a + 1) (by omega)]
    simp [List.range'_succ]

theorem get_event_batch_loop_ok {ε α : Type} (op : Nat → Except ε α) (errs : Nat → ε)
    (v : α) (k r : Nat)
    (hf : ∀ i, i < k → op i = .error (errs i)) (hs : op k = .ok v) (hkr : k ≤ r) :
    ∀ (d a : Nat), a + d = k →
      get_event_batch_loop op r (r - a) a =
        ⟨.ok v, (List.range' a d).map (fun i => exponential_sleep (i + 1) 256),
          List.range' a (d + 1)⟩ := by
  intro d
  induction d with
  | zero =>
    intro a ha
    have hak : a = k := by omega
    subst hak
    rw [get_event_batch_loop, hs]
    simp [List.range'_one]
  | succ d ihd =>
    intro a ha
    have h1 : a < k := by omega
    rw [get_event_batch_loop, hf a h1]
    simp only []
    rw [dif_neg (by omega : ¬ r - a = 0)]
    have hd1 : r - a - 1 = r - (a + 1) := by omega
    have hd2 : r - (r - a - 1) = a + 1 := by omega
    rw [hd2, hd1, ihd (a + 1) (by omega)]
    simp [List.range'_succ]

theorem get_event_batch_loop_fail {ε α : Type} (op : Nat → Except ε α) (errs : Nat → ε)
    (r : Nat) (hf : ∀ i, op i = .error (errs i)) :
    ∀ (d a : Nat), a + d = r →
      get_event_batch_loop op r (r - a) a =
        ⟨.error (errs r), (List.range' a d).map (fun i => exponential_sleep (i + 1) 256),
          List.range' a (d + 1)⟩ := by
  intro d
  induction d with
  | zero =>
    intro a ha
    have hak : a = r := by omega
    rw [get_event_batch_loop, hf a]
    simp only []
    rw [dif_pos (by omega : r - a = 0)]
    rw [hak]
    simp [List.range'_one]
  | succ d ihd =>
    intro a ha
    rw [get_event_batch_loop, hf a]
    simp only []
    rw [dif_neg (by omega : ¬ r - a = 0)]
    have hd1 : r - a - 1 = r - (a + 1) := by omega
    have hd2 : r - (r - a - 1) = a + 1 := by omega
    rw [hd2, hd1, ihd (a + 1) (by omega)]
    simp [List.range'_succ]

/-! ### Claim C3 — backoff schedule of the two retry paths -/

/-- Claim C3 counterexample: for an operation that fails exactly once and
then succeeds (`k = 1`), the claim predicts sleeps `2^0 = 1` second on both
retry paths, but `get_event_batch_with_retries` (with its source-default 10
retries) sleeps 2 seconds: its i-th sleep uses exponent `i`, starting at 1
(`exponential_sleep(initial_retries - retries)` after the decrement). -/
theorem claim_C3_counterexample :
    (get_event_batch_with_retries ex_op1 10).sleeps = [2]
    ∧ (get_event_batch_with_retries ex_op1 10).sleeps ≠ [1] := by
  refine ⟨?_, ?_⟩ <;>
    simp [get_event_batch_with_retries, get_event_batch_loop, ex_op1,
      exponential_sleep]

/-- Claim C3 (amended): for an operation failing exactly `k` times then
succeeding, with `max_attempts > k`, both retry paths return the success
value after exactly `k + 1` invocations (indices `0..k`), but their sleep
schedules differ: the `retryable` decorator sleeps
`min(2^i, 256)` for `i = 0, …, k-1` (i.e. `1, 2, …, 2^(k-1)` capped),
while `get_event_batch_with_retries` sleeps `min(2^(i+1), 256)` for
`i = 0, …, k-1` (i.e. `2, 4, …, 2^k` capped). -/
theorem claim_C3_amended {ε α : Type} (op : Nat → Except ε α) (errs : Nat → ε)
    (v : α) (k max_attempts : Nat)
    (hf : ∀ i, i < k → op i = .error (errs i)) (hs : op k = .ok v)
    (hkm : k < max_attempts) :
    retryable op max_attempts =
      ⟨.ok v, (List.range k).map (fun i => exponential_sleep i 256),
        List.range (k + 1)⟩
    ∧ get_event_batch_with_retries op max_attempts =
      ⟨.ok v, (List.range k).map (fun i => exponential_sleep (i + 1) 256),
        List.range (k + 1)⟩ := by
  constructor
  · have h := retryable_loop_ok op errs v k max_attempts hf hs hkm k 0 (by omega)
    rw [retryable, h]
    simp [List.range_eq_range']
  · have h := get_event_batch_loop_ok op errs v k max_attempts hf hs (by omega)
      k 0 (by omega)
    simp only [Nat.sub_zero] at h
    rw [get_event_batch_with_retries, h]
    simp [List.range_eq_range']

/-- Witness for C3 (amended) at `k = 2`, `max_attempts = 10`: `retryable`
sleeps `[1, 2]`, `get_event_batch_with_retries` sleeps `[2, 4]`; both make
invocations `0, 1, 2`. -/
theorem claim_C3_witness :
    retryable ex_op3 10 =
      ⟨.ok 42, (List.range 2).map (fun i => exponential_sleep i 256),
        List.range 3⟩
    ∧ get_event_batch_with_retries ex_op3 10 =
      ⟨.ok 42, (List.range 2).map (fun i => exponential_sleep (i + 1) 256),
        List.range 3⟩ :=
  claim_C3_amended ex_op3 (fun i => i) 42 2 10
    (fun i hi => by simp [ex_op3, hi]) (by simp [ex_op3]) (by omega)

/-! ### Claim C4 — exhaustion behavior of the retry paths -/

/-- Claim C4 counterexample: the claim says the surfaced terminal error is a
`RetriesExhaustedError` wrapper carrying the underlying cause and the
number of attempts made.  In the source both retry paths simply re-raise
the last underlying error (`raise e` / bare `raise`): with the same
always-failing operation, runs with `max_attempts = 1` and
`max_attempts = 2` make different numbers of invocations yet surface the
identical bare error value `7`, so the surfaced error is the unwrapped
underlying error and carries no attempt count. -/
theorem claim_C4_counterexample :
    (retryable ex_fail 1).result = (retryable ex_fail 2).result
    ∧ (retryable ex_fail 1).invoked.length ≠ (retryable ex_fail 2).invoked.length
    ∧ (retryable ex_fail 1).result = .error 7 := by
  refine ⟨?_, ?_, ?_⟩ <;>
    simp [retryable, retryable_loop, ex_fail, exponential_sleep]

/-- Claim C4 (amended): for an always-failing operation and
`max_attempts = m`, both retry paths invoke the operation exactly `m + 1`
times (indices `0..m`) and then re-raise the last underlying error itself —
bare, not wrapped in a `RetriesExhaustedError`, and carrying no attempt
count (the attempt count appears only in log output). -/
theorem claim_C4_amended {ε α : Type} (op : Nat → Except ε α) (errs : Nat → ε)
    (m : Nat) (hf : ∀ i, op i = .error (errs i)) :
    retryable op m =
      ⟨.error (errs m), (List.range m).map (fun i => exponential_sleep i 256),
        List.range (m + 1)⟩
    ∧ get_event_batch_with_retries op m =
      ⟨.error (errs m), (List.range m).map (fun i => exponential_sleep (i + 1) 256),
        List.range (m + 1)⟩ := by
  constructor
  · have h := retryable_loop_fail op errs m hf m 0 (by omega)
    rw [retryable, h]
    simp [List.range_eq_range']
  · have h := get_event_batch_loop_fail op errs m hf m 0 (by omega)
    simp only [Nat.sub_zero] at h
    rw [get_event_batch_with_retries, h]
    simp [List.range_eq_range']

/-- Witness for C4 (amended) at `m = 1` with the always-failing operation:
both paths invoke twice (indices 0, 1) and surface the bare error 7. -/
theorem claim_C4_witness :
    retryable ex_fail 1 =
      ⟨.error 7, (List.range 1).map (fun i => exponential_sleep i 256),
        List.range 2⟩
    ∧ get_event_batch_with_retries ex_fail 1 =
      ⟨.error 7, (List.range 1).map (fun i => exponential_sleep (i + 1) 256),
        List.range 2⟩ :=
  claim_C4_amended ex_fail (fun _ => 7) 1 (fun _ => rfl)

/-! ### Bisection helpers -/

theorem bisect_mid_bounds (lo hi : Int) (h : lo ≤ hi) :
    lo ≤ (lo + hi).fdiv 2 ∧ (lo + hi).fdiv 2 ≤ hi := by
  rw [Int.fdiv_eq_ediv (lo + hi) (by decide)]
  omega

theorem bisect_loop_exit (getBlock : Int → Option BlockData) (w : Int) (nb : Bool)
    (fuel : Nat) (lo hi : Int) (c : Option BlockData) (cd : Int) (h : ¬ lo ≤ hi) :
    bisect_loop getBlock w nb fuel lo hi c cd = bisect_finish getBlock w nb c := by
  rw [bisect_loop.eq_def]
  simp [h]

theorem bisect_loop_chain_eq (T : Int → Int) (w : Int) (nb : Bool) (f : Nat)
    (lo hi : Int) (c : Option BlockData) (cd : Int) (h : lo ≤ hi)
    (heq : T ((lo + hi).fdiv 2) = w) :
    bisect_loop (chainOf T) w nb (f + 1) lo hi c cd =
      (.found ⟨(lo + hi).fdiv 2, T ((lo + hi).fdiv 2)⟩, [(lo + hi).fdiv 2]) := by
  rw [bisect_loop.eq_def]
  simp only [if_pos h, chainOf]
  simp [heq]

theorem bisect_loop_chain_gt_upd (T : Int → Int) (w : Int) (nb : Bool) (f : Nat)
    (lo hi : Int) (c : Option BlockData) (cd : Int) (h : lo ≤ hi)
    (hgt : T ((lo + hi).fdiv 2) > w) (hupd : |T ((lo + hi).fdiv 2) - w| < cd) :
    bisect_loop (chainOf T) w nb (f + 1) lo hi c cd =
      ((bisect_loop (chainOf T) w nb f lo ((lo + hi).fdiv 2 - 1)
          (some ⟨(lo + hi).fdiv 2, T ((lo + hi).fdiv 2)⟩)
          (|T ((lo + hi).fdiv 2) - w|)).1,
        (lo + hi).fdiv 2 ::
        (bisect_loop (chainOf T) w nb f lo ((lo + hi).fdiv 2 - 1)
          (some ⟨(lo + hi).fdiv 2, T ((lo + hi).fdiv 2)⟩)
          (|T ((lo + hi).fdiv 2) - w|)).2) := by
  rw [bisect_loop.eq_def]
  simp only [if_pos h, chainOf]
  simp [hgt, hupd]

theorem bisect_loop_chain_gt_keep (T : Int → Int) (w : Int) (nb : Bool) (f : Nat)
    (lo hi : Int) (c : Option BlockData) (cd : Int) (h : lo ≤ hi)
    (hgt : T ((lo + hi).fdiv 2) > w) (hupd : ¬ |T ((lo + hi).fdiv 2) - w| < cd) :
    bisect_loop (chainOf T) w nb (f + 1) lo hi c cd =
      ((bisect_loop (chainOf T) w nb f lo ((lo + hi).fdiv 2 - 1) c cd).1,
        (lo + hi).fdiv 2 ::
        (bisect_loop (chainOf T) w nb f lo ((lo + hi).fdiv 2 - 1) c cd).2) := by
  rw [bisect_loop.eq_def]
  simp only [if_pos h, chainOf]
  simp [hgt, hupd]

theorem bisect_loop_chain_lt_upd (T : Int → Int) (w : Int) (nb : Bool) (f : Nat)
    (lo hi : Int) (c : Option BlockData) (cd : Int) (h : lo ≤ hi)
    (hlt : T ((lo + hi).fdiv 2) < w) (hupd : |T ((lo + hi).fdiv 2) - w| < cd) :
    bisect_loop (chainOf T) w nb (f + 1) lo hi c cd =
      ((bisect_loop (chainOf T) w nb f ((lo + hi).fdiv 2 + 1) hi
          (some ⟨(lo + hi).fdiv 2, T ((lo + hi).fdiv 2)⟩)
          (|T ((lo + hi).fdiv 2) - w|)).1,
        (lo + hi).fdiv 2 ::
        (bisect_loop (chainOf T) w nb f ((lo + hi).fdiv 2 + 1) hi
          (some ⟨(lo + hi).fdiv 2, T ((lo + hi).fdiv 2)⟩)
          (|T ((lo + hi).fdiv 2) - w|)).2) := by
  rw [bisect_loop.eq_def]
  simp only [if_pos h, chainOf]
  have hngt : ¬ T ((lo + hi).fdiv 2) > w := by omega
  simp [hngt, hlt, hupd]

theorem bisect_loop_chain_lt_keep (T : Int → Int) (w : Int) (nb : Bool) (f : Nat)
    (lo hi : Int) (c : Option BlockData) (cd : Int) (h : lo ≤ hi)
    (hlt : T ((lo + hi).fdiv 2) < w) (hupd : ¬ |T ((lo + hi).fdiv 2) - w| < cd) :
    bisect_loop (chainOf T) w nb (f + 1) lo hi c cd =
      ((bisect_loop (chainOf T) w nb f ((lo + hi).fdiv 2 + 1) hi c cd).1,
        (lo + hi).fdiv 2 ::
        (bisect_loop (chainOf T) w nb f ((lo + hi).fdiv 2 + 1) hi c cd).2) := by
  rw [bisect_loop.eq_def]
  simp only [if_pos h, chainOf]
  have hngt : ¬ T ((lo + hi).fdiv 2) > w := by omega
  simp [hngt, hlt, hupd]

/-! ### Claim C6 — not_before returns the immediate successor -/

set_option maxRecDepth 40000 in
/-- Claim C6: whenever `not_before = true` and the best candidate found by
the search has timestamp strictly below the wanted timestamp, the
post-processing returns the block fetched at number one higher than the
candidate (whatever block the collaborator yields there); and in the
end-to-end scenario `latest_block_number = 100`, `T n = 1000 * n`, target
`50500` (a tie between blocks 50 and 51 at distance 500), the result is
block 51. -/
theorem claim_C6_not_before (getBlock : Int → Option BlockData) (t : Int)
    (cb b : BlockData) (hlt : cb.timestamp < t)
    (hfetch : getBlock (cb.number + 1) = some b) :
    (bisect_finish getBlock t true (some cb)).1 = .found b
    ∧ (get_closest_block (chainOf linT) 100 50500 true 200).1
        = .found ⟨51, 51000⟩ := by
  constructor
  · simp [bisect_finish, hlt, hfetch]
  · decide

/-- Witness for C6: a candidate block `⟨1, 5⟩` before target 10 on the
total chain with `T n = 1000 * n` makes the post-processing return block 2. -/
theorem claim_C6_witness :
    (bisect_finish (chainOf linT) 10 true (some ⟨1, 5⟩)).1 = .found ⟨2, 2000⟩ :=
  (claim_C6_not_before (chainOf linT) 10 ⟨1, 5⟩ ⟨2, 2000⟩ (by decide) rfl).1

/-! ### Claim C10 — the successor fetch is unconditional and unvalidated -/

set_option maxRecDepth 40000 in
/-- Claim C10: whenever the `not_before` branch fires (the candidate's
timestamp is strictly below the target), exactly one additional fetch is
issued, at `closest.number + 1`, and its outcome is returned as-is — a
successful fetch is returned with no validation of its timestamp, a failed
fetch aborts the call.  In particular, on the 2-block chain `chain2` with
target 25, the search's best candidate is the latest block (2), so the
extra fetch targets the nonexistent block 3 and the whole call fails even
though the inputs were valid. -/
theorem claim_C10_unconditional_fetch (getBlock : Int → Option BlockData)
    (t : Int) (cb : BlockData) (hlt : cb.timestamp < t) :
    bisect_finish getBlock t true (some cb) =
      ((match getBlock (cb.number + 1) with
        | some b => ClosestResult.found b
        | none => ClosestResult.rpcError), [cb.number + 1])
    ∧ get_closest_block chain2 2 25 true 10 = (.rpcError, [1, 2, 3]) := by
  constructor
  · simp only [bisect_finish]
    rw [if_pos (⟨trivial, hlt⟩ : True ∧ cb.timestamp < t)]
    cases getBlock (cb.number + 1) <;> rfl
  · decide

/-- Witness for C10: the same candidate as in the C6 witness, on the finite
chain `chain2`, where block 2 exists. -/
theorem claim_C10_witness :
    bisect_finish chain2 25 true (some ⟨1, 10⟩) =
      ((match chain2 (1 + 1) with
        | some b => ClosestResult.found b
        | none => ClosestResult.rpcError), [1 + 1]) :=
  (claim_C10_unconditional_fetch chain2 25 ⟨1, 10⟩ (by decide)).1

/-! ### Claim C7 — exact timestamp match short-circuits the search -/

theorem bisect_loop_exact (T : Int → Int) (latest t : Int) (nb : Bool)
    (hmono : ∀ a b : Int, 1 ≤ a → a ≤ b → b ≤ latest → T a ≤ T b) :
    ∀ (fuel : Nat) (lo hi : Int) (c : Option BlockData) (cd : Int),
      1 ≤ lo → hi ≤ latest →
      (∃ m, lo ≤ m ∧ m ≤ hi ∧ T m = t) →
      hi + 1 - lo ≤ (fuel : Int) →
      ∃ (b : Int) (ps : List Int),
        bisect_loop (chainOf T) t nb fuel lo hi c cd = (.found ⟨b, t⟩, ps ++ [b])
        ∧ T b = t ∧ lo ≤ b ∧ b ≤ hi ∧ ∀ p ∈ ps, T p ≠ t := by
  intro fuel
  induction fuel with
  | zero =>
    intro lo hi c cd h1 h2 hm hf
    obtain ⟨m, hm1, hm2, hm3⟩ := hm
    exfalso
    omega
  | succ f ih =>
    intro lo hi c cd h1 h2 hm hf
    obtain ⟨m, hm1, hm2, hm3⟩ := hm
    have hlohi : lo ≤ hi := le_trans hm1 hm2
    obtain ⟨hmid1, hmid2⟩ := bisect_mid_bounds lo hi hlohi
    rcases lt_trichotomy (T ((lo + hi).fdiv 2)) t with hlt | heq | hgt
    · have hmgt : (lo + hi).fdiv 2 + 1 ≤ m := by
        by_contra hcon
        push_neg at hcon
        have := hmono m ((lo + hi).fdiv 2) (by omega) (by omega) (by omega)
        omega
      have step : ∀ c2 cd2,
          ∃ (b : Int) (ps : List Int),
            bisect_loop (chainOf T) t nb f ((lo + hi).fdiv 2 + 1) hi c2 cd2
                = (.found ⟨b, t⟩, ps ++ [b])
              ∧ T b = t ∧ lo ≤ b ∧ b ≤ hi ∧ ∀ p ∈ ps, T p ≠ t := by
        intro c2 cd2
        obtain ⟨b, ps, hb, hTb, hb1, hb2, hps⟩ :=
          ih ((lo + hi).fdiv 2 + 1) hi c2 cd2 (by omega) h2
            ⟨m, hmgt, hm2, hm3⟩ (by omega)
        exact ⟨b, ps, hb, hTb, by omega, hb2, hps⟩
      by_cases hupd : |T ((lo + hi).fdiv 2) - t| < cd
      · rw [bisect_loop_chain_lt_upd T t nb f lo hi c cd hlohi hlt hupd]
        obtain ⟨b, ps, hb, hTb, hb1, hb2, hps⟩ := step _ _
        refine ⟨b, (lo + hi).fdiv 2 :: ps, ?_, hTb, by omega, hb2, ?_⟩
        · rw [hb]
          rfl
        · intro p hp
          rcases List.mem_cons.mp hp with hp | hp
          · subst hp; omega
          · exact hps p hp
      · rw [bisect_loop_chain_lt_keep T t nb f lo hi c cd hlohi hlt hupd]
        obtain ⟨b, ps, hb, hTb, hb1, hb2, hps⟩ := step _ _
        refine ⟨b, (lo + hi).fdiv 2 :: ps, ?_, hTb, by omega, hb2, ?_⟩
        · rw [hb]
          rfl
        · intro p hp
          rcases List.mem_cons.mp hp with hp | hp
          · subst hp; omega
          · exact hps p hp
    · rw [bisect_loop_chain_eq T t nb f lo hi c cd hlohi heq]
      refine ⟨(lo + hi).fdiv 2, [], ?_, heq, hmid1, hmid2, by simp⟩
      rw [heq]
      rfl
    · have hmlt : m ≤ (lo + hi).fdiv 2 - 1 := by
        by_contra hcon
        push_neg at hcon
        have := hmono ((lo + hi).fdiv 2) m (by omega) (by omega) (by omega)
        omega
      have step : ∀ c2 cd2,
          ∃ (b : Int) (ps : List Int),
            bisect_loop (chainOf T) t nb f lo ((lo + hi).fdiv 2 - 1) c2 cd2
                = (.found ⟨b, t⟩, ps ++ [b])
              ∧ T b = t ∧ lo ≤ b ∧ b ≤ hi ∧ ∀ p ∈ ps, T p ≠ t := by
        intro c2 cd2
        obtain ⟨b, ps, hb, hTb, hb1, hb2, hps⟩ :=
          ih lo ((lo + hi).fdiv 2 - 1) c2 cd2 h1 (by omega)
            ⟨m, hm1, hmlt, hm3⟩ (by omega)
        exact ⟨b, ps, hb, hTb, hb1, by omega, hps⟩
      by_cases hupd : |T ((lo + hi).fdiv 2) - t| < cd
      · rw [bisect_loop_chain_gt_upd T t nb f lo hi c cd hlohi hgt hupd]
        obtain ⟨b, ps, hb, hTb, hb1, hb2, hps⟩ := step _ _
        refine ⟨b, (lo + hi).fdiv 2 :: ps, ?_, hTb, hb1, hb2, ?_⟩
        · rw [hb]
          rfl
        · intro p hp
          rcases List.mem_cons.mp hp with hp | hp
          · subst hp; omega
          · exact hps p hp
      · rw [bisect_loop_chain_gt_keep T t nb f lo hi c cd hlohi hgt hupd]
        obtain ⟨b, ps, hb, hTb, hb1, hb2, hps⟩ := step _ _
        refine ⟨b, (lo + hi).fdiv 2 :: ps, ?_, hTb, hb1, hb2, ?_⟩
        · rw [hb]
          rfl
        · intro p hp
          rcases List.mem_cons.mp hp with hp | hp
          · subst hp; omega
          · exact hps p hp

/-- Claim C7: on a chain with monotone timestamps, if some block in
`[1, latest_block_number]` has timestamp exactly `t`, then
`get_closest_block` returns a block whose timestamp equals `t`, and the
probe trace ends at that block: every earlier probe has a different
timestamp and no fetch happens after the matching probe (the exact match
returns immediately, bypassing the `not_before` post-processing — the
statement holds for either value of `not_before`). -/
theorem claim_C7_exact_match (T : Int → Int) (latest t : Int) (nb : Bool)
    (fuel : Nat)
    (hmono : ∀ a b : Int, 1 ≤ a → a ≤ b → b ≤ latest → T a ≤ T b)
    (hex : ∃ m, 1 ≤ m ∧ m ≤ latest ∧ T m = t)
    (hfuel : latest ≤ (fuel : Int)) :
    ∃ (b : Int) (ps : List Int),
      get_closest_block (chainOf T) latest t nb fuel = (.found ⟨b, t⟩, ps ++ [b])
      ∧ T b = t ∧ ∀ p ∈ ps, T p ≠ t := by
  obtain ⟨m, h1, h2, h3⟩ := hex
  obtain ⟨b, ps, hb, hTb, _, _, hps⟩ :=
    bisect_loop_exact T latest t nb hmono fuel 1 latest none (2 ^ 256 - 1)
      le_rfl le_rfl ⟨m, h1, h2, h3⟩ (by omega)
  exact ⟨b, ps, hb, hTb, hps⟩

/-- Witness for C7 on the chain `T n = 100 * n` with 3 blocks and target
200: block 2 matches exactly. -/
theorem claim_C7_witness :
    ∃ (b : Int) (ps : List Int),
      get_closest_block (chainOf stepT) 3 200 false 10 = (.found ⟨b, 200⟩, ps ++ [b])
      ∧ stepT b = 200 ∧ ∀ p ∈ ps, stepT p ≠ 200 :=
  claim_C7_exact_match stepT 3 200 false 10
    (fun a b _ hab _ => by simp only [stepT]; omega)
    ⟨2, by norm_num [stepT]⟩ (by norm_num)

/-! ### Claim C8 — reachability of the LookupError branch -/

theorem bisect_finish_some_found (T : Int → Int) (t : Int) (nb : Bool)
    (c : BlockData) :
    ∃ b, (bisect_finish (chainOf T) t nb (some c)).1 = .found b := by
  simp only [bisect_finish]
  by_cases hc : nb = true ∧ c.timestamp < t
  · rw [if_pos hc]
    exact ⟨⟨c.number + 1, T (c.number + 1)⟩, rfl⟩
  · rw [if_neg hc]
    exact ⟨c, rfl⟩

theorem bisect_loop_some_found (T : Int → Int) (t : Int) (nb : Bool) :
    ∀ (fuel : Nat) (lo hi : Int) (c : BlockData) (cd : Int),
      hi + 1 - lo ≤ (fuel : Int) →
      ∃ b, (bisect_loop (chainOf T) t nb fuel lo hi (some c) cd).1 = .found b := by
  intro fuel
  induction fuel with
  | zero =>
    intro lo hi c cd hf
    rw [bisect_loop_exit _ _ _ _ _ _ _ _ (by omega : ¬ lo ≤ hi)]
    exact bisect_finish_some_found T t nb c
  | succ f ih =>
    intro lo hi c cd hf
    by_cases hlohi : lo ≤ hi
    · obtain ⟨hmid1, hmid2⟩ := bisect_mid_bounds lo hi hlohi
      rcases lt_trichotomy (T ((lo + hi).fdiv 2)) t with hlt | heq | hgt
      · by_cases hupd : |T ((lo + hi).fdiv 2) - t| < cd
        · rw [bisect_loop_chain_lt_upd T t nb f lo hi (some c) cd hlohi hlt hupd]
          exact ih ((lo + hi).fdiv 2 + 1) hi _ _ (by omega)
        · rw [bisect_loop_chain_lt_keep T t nb f lo hi (some c) cd hlohi hlt hupd]
          exact ih ((lo + hi).fdiv 2 + 1) hi _ _ (by omega)
      · rw [bisect_loop_chain_eq T t nb f lo hi (some c) cd hlohi heq]
        exact ⟨_, rfl⟩
      · by_cases hupd : |T ((lo + hi).fdiv 2) - t| < cd
        · rw [bisect_loop_chain_gt_upd T t nb f lo hi (some c) cd hlohi hgt hupd]
          exact ih lo ((lo + hi).fdiv 2 - 1) _ _ (by omega)
        · rw [bisect_loop_chain_gt_keep T t nb f lo hi (some c) cd hlohi hgt hupd]
          exact ih lo ((lo + hi).fdiv 2 - 1) _ _ (by omega)
    · rw [bisect_loop_exit _ _ _ _ _ _ _ _ hlohi]
      exact bisect_finish_some_found T t nb c

set_option maxRecDepth 40000 in
/-- Claim C8 counterexample: the claim says the `LookupError` branch is
unreachable for every timestamp assignment once `latest_block_number ≥ 1`,
because the first probe allegedly always beats the `2^256 - 1` sentinel.
With `latest_block_number = 1`, a block-1 timestamp of `2^256 - 1` and
target 0, the first (and only) probe has `|diff| = 2^256 - 1`, which does
not beat the sentinel, no candidate is ever recorded, and the call ends in
`LookupError`. -/
theorem claim_C8_counterexample :
    get_closest_block (chainOf exTbig) 1 0 false 10 = (.lookupError, [1]) := by
  decide

/-- Claim C8 (amended): for `latest_block_number ≥ 1` and any timestamp
assignment whose distances to the target stay below the `2^256 - 1`
sentinel on the searched range (true of any realistic timestamps), the
`LookupError` branch is unreachable: the first probe is recorded as best
candidate and the locator returns a block.  (Timestamp distances at or
above the sentinel defeat the strict-improvement test and make
`LookupError` reachable, as the counterexample shows.) -/
theorem claim_C8_amended (T : Int → Int) (latest t : Int) (nb : Bool) (fuel : Nat)
    (hlatest : 1 ≤ latest)
    (hdiff : ∀ n : Int, 1 ≤ n → n ≤ latest → |T n - t| < 2 ^ 256 - 1)
    (hfuel : latest ≤ (fuel : Int)) :
    ∃ b, (get_closest_block (chainOf T) latest t nb fuel).1 = .found b := by
  have hlohi : (1 : Int) ≤ latest := hlatest
  cases fuel with
  | zero => exfalso; omega
  | succ f =>
    obtain ⟨hmid1, hmid2⟩ := bisect_mid_bounds 1 latest hlohi
    have hd := hdiff ((1 + latest).fdiv 2) (by omega) (by omega)
    rw [get_closest_block]
    rcases lt_trichotomy (T ((1 + latest).fdiv 2)) t with hlt | heq | hgt
    · rw [bisect_loop_chain_lt_upd T t nb f 1 latest none (2 ^ 256 - 1) hlohi hlt hd]
      exact bisect_loop_some_found T t nb f ((1 + latest).fdiv 2 + 1) latest _ _
        (by omega)
    · rw [bisect_loop_chain_eq T t nb f 1 latest none (2 ^ 256 - 1) hlohi heq]
      exact ⟨_, rfl⟩
    · rw [bisect_loop_chain_gt_upd T t nb f 1 latest none (2 ^ 256 - 1) hlohi hgt hd]
      exact bisect_loop_some_found T t nb f 1 ((1 + latest).fdiv 2 - 1) _ _
        (by omega)

/-- Witness for C8 (amended) on the chain `T n = 100 * n` with 2 blocks and
target 150. -/
theorem claim_C8_witness :
    ∃ b, (get_closest_block (chainOf stepT) 2 150 false 10).1 = .found b :=
  claim_C8_amended stepT 2 150 false 10 (by norm_num)
    (fun n h1 h2 => by
      simp only [stepT]
      rw [abs_lt]
      omega)
    (by norm_num)

/-! ### Claim C2 — bisection best-candidate analysis -/

theorem bisect_finish_false (g : Int → Option BlockData) (w : Int) (cb : BlockData) :
    bisect_finish g w false (some cb) = (.found cb, []) := by
  simp [bisect_finish]

theorem bisect_loop_right_of_k (T : Int → Int) (latest t k : Int)
    (hmono : ∀ a b : Int, 1 ≤ a → a < b → b ≤ latest → T a < T b)
    (hk1 : 1 ≤ k) (_hk2 : k + 1 ≤ latest) (_hdk : T k < t) (hdk1 : t < T (k + 1)) :
    ∀ (fuel : Nat) (hi : Int) (c : Option BlockData) (cd : Int),
      k + 1 ≤ hi → hi ≤ latest → hi + 1 - (k + 1) ≤ (fuel : Int) →
      ((t - T k ≤ T (k + 1) - t ∧ c = some ⟨k, T k⟩ ∧ cd = t - T k) ∨
        (T (k + 1) - t < t - T k ∧ T (k + 1) - t < cd)) →
      ∃ ps, bisect_loop (chainOf T) t false fuel (k + 1) hi c cd =
        ((if t - T k ≤ T (k + 1) - t then ClosestResult.found ⟨k, T k⟩
          else ClosestResult.found ⟨k + 1, T (k + 1)⟩), ps) := by
  intro fuel
  induction fuel with
  | zero => intro hi c cd hh1 hh2 hf hdisj; exfalso; omega
  | succ f ih =>
    intro hi c cd hh1 hh2 hf hdisj
    have hlohi : k + 1 ≤ hi := hh1
    obtain ⟨hmid1, hmid2⟩ := bisect_mid_bounds (k + 1) hi hlohi
    by_cases hc : (k + 1 + hi).fdiv 2 = k + 1
    · have hgt : T ((k + 1 + hi).fdiv 2) > t := by rw [hc]; exact hdk1
      have habs : |T ((k + 1 + hi).fdiv 2) - t| = T (k + 1) - t := by
        rw [hc, abs_of_pos (by omega)]
      rcases hdisj with ⟨hle, hcc, hcd⟩ | ⟨hlt2, hcd2⟩
      · have hnupd : ¬ |T ((k + 1 + hi).fdiv 2) - t| < cd := by
          rw [habs, hcd]; omega
        rw [bisect_loop_chain_gt_keep T t false f (k + 1) hi c cd hlohi hgt hnupd]
        rw [hc]
        rw [bisect_loop_exit _ _ _ _ _ _ _ _ (by omega : ¬ k + 1 ≤ k + 1 - 1)]
        rw [hcc, bisect_finish_false, if_pos hle]
        exact ⟨[k + 1], rfl⟩
      · have hupd : |T ((k + 1 + hi).fdiv 2) - t| < cd := by rw [habs]; omega
        rw [bisect_loop_chain_gt_upd T t false f (k + 1) hi c cd hlohi hgt hupd]
        rw [hc]
        rw [bisect_loop_exit _ _ _ _ _ _ _ _ (by omega : ¬ k + 1 ≤ k + 1 - 1)]
        rw [bisect_finish_false, if_neg (by omega : ¬ t - T k ≤ T (k + 1) - t)]
        exact ⟨[k + 1], rfl⟩
    · have hmid3 : k + 2 ≤ (k + 1 + hi).fdiv 2 := by omega
      have hgt2 : T (k + 1) < T ((k + 1 + hi).fdiv 2) :=
        hmono (k + 1) _ (by omega) (by omega) (by omega)
      have hgt : T ((k + 1 + hi).fdiv 2) > t := by omega
      have habs : |T ((k + 1 + hi).fdiv 2) - t| = T ((k + 1 + hi).fdiv 2) - t :=
        abs_of_pos (by omega)
      rcases hdisj with ⟨hle, hcc, hcd⟩ | ⟨hlt2, hcd2⟩
      · have hnupd : ¬ |T ((k + 1 + hi).fdiv 2) - t| < cd := by
          rw [habs, hcd]; omega
        rw [bisect_loop_chain_gt_keep T t false f (k + 1) hi c cd hlohi hgt hnupd]
        obtain ⟨ps, hps⟩ := ih ((k + 1 + hi).fdiv 2 - 1) c cd (by omega) (by omega)
          (by omega) (Or.inl ⟨hle, hcc, hcd⟩)
        rw [hps]
        exact ⟨(k + 1 + hi).fdiv 2 :: ps, rfl⟩
      · by_cases hupd : |T ((k + 1 + hi).fdiv 2) - t| < cd
        · rw [bisect_loop_chain_gt_upd T t false f (k + 1) hi c cd hlohi hgt hupd]
          obtain ⟨ps, hps⟩ := ih ((k + 1 + hi).fdiv 2 - 1)
            (some ⟨(k + 1 + hi).fdiv 2, T ((k + 1 + hi).fdiv 2)⟩)
            (|T ((k + 1 + hi).fdiv 2) - t|) (by omega) (by omega)
            (by omega) (Or.inr ⟨hlt2, by rw [habs]; omega⟩)
          rw [hps]
          exact ⟨(k + 1 + hi).fdiv 2 :: ps, rfl⟩
        · rw [bisect_loop_chain_gt_keep T t false f (k + 1) hi c cd hlohi hgt hupd]
          obtain ⟨ps, hps⟩ := ih ((k + 1 + hi).fdiv 2 - 1) c cd (by omega) (by omega)
            (by omega) (Or.inr ⟨hlt2, hcd2⟩)
          rw [hps]
          exact ⟨(k + 1 + hi).fdiv 2 :: ps, rfl⟩

theorem bisect_loop_left_of_k1 (T : Int → Int) (latest t k : Int)
    (hmono : ∀ a b : Int, 1 ≤ a → a < b → b ≤ latest → T a < T b)
    (_hk1 : 1 ≤ k) (hk2 : k + 1 ≤ latest) (hdk : T k < t) (_hdk1 : t < T (k + 1)) :
    ∀ (fuel : Nat) (lo : Int) (c : Option BlockData) (cd : Int),
      1 ≤ lo → lo ≤ k → k + 1 - lo ≤ (fuel : Int) →
      ((T (k + 1) - t ≤ t - T k ∧ c = some ⟨k + 1, T (k + 1)⟩ ∧ cd = T (k + 1) - t) ∨
        (t - T k < T (k + 1) - t ∧ t - T k < cd)) →
      ∃ ps, bisect_loop (chainOf T) t false fuel lo k c cd =
        ((if T (k + 1) - t ≤ t - T k then ClosestResult.found ⟨k + 1, T (k + 1)⟩
          else ClosestResult.found ⟨k, T k⟩), ps) := by
  intro fuel
  induction fuel with
  | zero => intro lo c cd hh1 hh2 hf hdisj; exfalso; omega
  | succ f ih =>
    intro lo c cd hh1 hh2 hf hdisj
    have hlohi : lo ≤ k := hh2
    obtain ⟨hmid1, hmid2⟩ := bisect_mid_bounds lo k hlohi
    by_cases hc : (lo + k).fdiv 2 = k
    · have hlt : T ((lo + k).fdiv 2) < t := by rw [hc]; exact hdk
      have habs : |T ((lo + k).fdiv 2) - t| = t - T k := by
        rw [hc, abs_of_neg (by omega : T k - t < 0)]
        omega
      rcases hdisj with ⟨hle, hcc, hcd⟩ | ⟨hlt2, hcd2⟩
      · have hnupd : ¬ |T ((lo + k).fdiv 2) - t| < cd := by
          rw [habs, hcd]; omega
        rw [bisect_loop_chain_lt_keep T t false f lo k c cd hlohi hlt hnupd]
        rw [hc]
        rw [bisect_loop_exit _ _ _ _ _ _ _ _ (by omega : ¬ k + 1 ≤ k)]
        rw [hcc, bisect_finish_false, if_pos hle]
        exact ⟨[k], rfl⟩
      · have hupd : |T ((lo + k).fdiv 2) - t| < cd := by rw [habs]; omega
        rw [bisect_loop_chain_lt_upd T t false f lo k c cd hlohi hlt hupd]
        rw [hc]
        rw [bisect_loop_exit _ _ _ _ _ _ _ _ (by omega : ¬ k + 1 ≤ k)]
        rw [bisect_finish_false, if_neg (by omega : ¬ T (k + 1) - t ≤ t - T k)]
        exact ⟨[k], rfl⟩
    · have hmid3 : (lo + k).fdiv 2 ≤ k - 1 := by omega
      have hlt2m : T ((lo + k).fdiv 2) < T k :=
        hmono _ k (by omega) (by omega) (by omega)
      have hlt : T ((lo + k).fdiv 2) < t := by omega
      have habs : |T ((lo + k).fdiv 2) - t| = t - T ((lo + k).fdiv 2) := by
        rw [abs_of_neg (by omega : T ((lo + k).fdiv 2) - t < 0)]
        omega
      rcases hdisj with ⟨hle, hcc, hcd⟩ | ⟨hlt3, hcd2⟩
      · have hnupd : ¬ |T ((lo + k).fdiv 2) - t| < cd := by
          rw [habs, hcd]; omega
        rw [bisect_loop_chain_lt_keep T t false f lo k c cd hlohi hlt hnupd]
        obtain ⟨ps, hps⟩ := ih ((lo + k).fdiv 2 + 1) c cd (by omega) (by omega)
          (by omega) (Or.inl ⟨hle, hcc, hcd⟩)
        rw [hps]
        exact ⟨(lo + k).fdiv 2 :: ps, rfl⟩
      · by_cases hupd : |T ((lo + k).fdiv 2) - t| < cd
        · rw [bisect_loop_chain_lt_upd T t false f lo k c cd hlohi hlt hupd]
          obtain ⟨ps, hps⟩ := ih ((lo + k).fdiv 2 + 1)
            (some ⟨(lo + k).fdiv 2, T ((lo + k).fdiv 2)⟩)
            (|T ((lo + k).fdiv 2) - t|) (by omega) (by omega)
            (by omega) (Or.inr ⟨hlt3, by rw [habs]; omega⟩)
          rw [hps]
          exact ⟨(lo + k).fdiv 2 :: ps, rfl⟩
        · rw [bisect_loop_chain_lt_keep T t false f lo k c cd hlohi hlt hupd]
          obtain ⟨ps, hps⟩ := ih ((lo + k).fdiv 2 + 1) c cd (by omega) (by omega)
            (by omega) (Or.inr ⟨hlt3, hcd2⟩)
          rw [hps]
          exact ⟨(lo + k).fdiv 2 :: ps, rfl⟩

theorem bisect_loop_straddle (T : Int → Int) (latest t k : Int)
    (hmono : ∀ a b : Int, 1 ≤ a → a < b → b ≤ latest → T a < T b)
    (hk1 : 1 ≤ k) (hk2 : k + 1 ≤ latest) (hdk : T k < t) (hdk1 : t < T (k + 1)) :
    ∀ (fuel : Nat) (lo hi : Int) (c : Option BlockData) (cd : Int),
      1 ≤ lo → lo ≤ k → k + 1 ≤ hi → hi ≤ latest →
      hi + 1 - lo ≤ (fuel : Int) →
      min (t - T k) (T (k + 1) - t) < cd →
      ∃ j ps, bisect_loop (chainOf T) t false fuel lo hi c cd = (.found ⟨j, T j⟩, ps)
        ∧ (t - T k < T (k + 1) - t → j = k)
        ∧ (T (k + 1) - t < t - T k → j = k + 1)
        ∧ (t - T k = T (k + 1) - t →
            (j = k ∨ j = k + 1)
            ∧ ps.find? (fun p => p == k || p == k + 1) = some j) := by
  intro fuel
  induction fuel with
  | zero => intro lo hi c cd h1 h2 h3 h4 hf hcd; exfalso; omega
  | succ f ih =>
    intro lo hi c cd h1 h2 h3 h4 hf hcd
    have hlohi : lo ≤ hi := by omega
    obtain ⟨hmid1, hmid2⟩ := bisect_mid_bounds lo hi hlohi
    rcases lt_trichotomy ((lo + hi).fdiv 2) k with hmlt | hmeq | hmgt
    · -- probe strictly left of k: stays straddling
      have hTm : T ((lo + hi).fdiv 2) < T k :=
        hmono _ k (by omega) (by omega) (by omega)
      have hlt : T ((lo + hi).fdiv 2) < t := by omega
      have habs : |T ((lo + hi).fdiv 2) - t| = t - T ((lo + hi).fdiv 2) := by
        rw [abs_of_neg (by omega : T ((lo + hi).fdiv 2) - t < 0)]
        omega
      have hnotk : ¬ (((lo + hi).fdiv 2 == k || (lo + hi).fdiv 2 == k + 1) = true) := by
        simp
        omega
      by_cases hupd : |T ((lo + hi).fdiv 2) - t| < cd
      · rw [bisect_loop_chain_lt_upd T t false f lo hi c cd hlohi hlt hupd]
        obtain ⟨j, ps, hps, hj1, hj2, hj3⟩ := ih ((lo + hi).fdiv 2 + 1) hi
          (some ⟨(lo + hi).fdiv 2, T ((lo + hi).fdiv 2)⟩) (|T ((lo + hi).fdiv 2) - t|)
          (by omega) (by omega) h3 h4 (by omega) (by rw [habs]; omega)
        rw [hps]
        refine ⟨j, (lo + hi).fdiv 2 :: ps, rfl, hj1, hj2, ?_⟩
        intro htie
        obtain ⟨hj, hfind⟩ := hj3 htie
        have hfc : List.find? (fun p => p == k || p == k + 1)
            ((lo + hi).fdiv 2 :: ps) = List.find? (fun p => p == k || p == k + 1) ps :=
          List.find?_cons_of_neg ps hnotk
        exact ⟨hj, by rw [hfc]; exact hfind⟩
      · rw [bisect_loop_chain_lt_keep T t false f lo hi c cd hlohi hlt hupd]
        obtain ⟨j, ps, hps, hj1, hj2, hj3⟩ := ih ((lo + hi).fdiv 2 + 1) hi c cd
          (by omega) (by omega) h3 h4 (by omega) hcd
        rw [hps]
        refine ⟨j, (lo + hi).fdiv 2 :: ps, rfl, hj1, hj2, ?_⟩
        intro htie
        obtain ⟨hj, hfind⟩ := hj3 htie
        have hfc : List.find? (fun p => p == k || p == k + 1)
            ((lo + hi).fdiv 2 :: ps) = List.find? (fun p => p == k || p == k + 1) ps :=
          List.find?_cons_of_neg ps hnotk
        exact ⟨hj, by rw [hfc]; exact hfind⟩
    · -- probe hits k
      have hlt : T ((lo + hi).fdiv 2) < t := by rw [hmeq]; exact hdk
      have habs2 : |T k - t| = t - T k := by
        rw [abs_of_neg (by omega : T k - t < 0)]
        omega
      rcases le_or_lt (t - T k) (T (k + 1) - t) with hcase | hcase
      · have hupd : |T ((lo + hi).fdiv 2) - t| < cd := by
          rw [hmeq, habs2]
          omega
        rw [bisect_loop_chain_lt_upd T t false f lo hi c cd hlohi hlt hupd]
        rw [hmeq]
        obtain ⟨ps, hps⟩ := bisect_loop_right_of_k T latest t k hmono hk1 hk2 hdk hdk1
          f hi (some ⟨k, T k⟩) (|T k - t|) h3 h4 (by omega)
          (Or.inl ⟨hcase, rfl, habs2⟩)
        rw [hps, if_pos hcase]
        refine ⟨k, k :: ps, rfl, fun _ => rfl, fun h => by omega, fun htie => ?_⟩
        have hfc : List.find? (fun p => p == k || p == k + 1) (k :: ps) = some k :=
          List.find?_cons_of_pos ps (by simp)
        exact ⟨Or.inl rfl, hfc⟩
      · by_cases hupd : |T ((lo + hi).fdiv 2) - t| < cd
        · rw [bisect_loop_chain_lt_upd T t false f lo hi c cd hlohi hlt hupd]
          rw [hmeq]
          obtain ⟨ps, hps⟩ := bisect_loop_right_of_k T latest t k hmono hk1 hk2 hdk hdk1
            f hi (some ⟨k, T k⟩) (|T k - t|) h3 h4 (by omega)
            (Or.inr ⟨hcase, by rw [habs2]; omega⟩)
          rw [hps, if_neg (by omega)]
          exact ⟨k + 1, k :: ps, rfl, fun h => by omega, fun _ => rfl,
            fun htie => absurd htie (by omega)⟩
        · rw [bisect_loop_chain_lt_keep T t false f lo hi c cd hlohi hlt hupd]
          obtain ⟨ps, hps⟩ := bisect_loop_right_of_k T latest t k hmono hk1 hk2 hdk hdk1
            f hi c cd h3 h4 (by omega) (Or.inr ⟨hcase, by omega⟩)
          rw [hmeq, hps, if_neg (by omega)]
          exact ⟨k + 1, k :: ps, rfl, fun h => by omega, fun _ => rfl,
            fun htie => absurd htie (by omega)⟩
    · rcases eq_or_lt_of_le (by omega : k + 1 ≤ (lo + hi).fdiv 2) with hmeq1 | hmgt2
      · -- probe hits k + 1
        have hgt : T ((lo + hi).fdiv 2) > t := by rw [← hmeq1]; exact hdk1
        have habs2 : |T (k + 1) - t| = T (k + 1) - t := abs_of_pos (by omega)
        have hsimp1 : (k + 1 - 1 : Int) = k := by omega
        rcases le_or_lt (T (k + 1) - t) (t - T k) with hcase | hcase
        · have hupd : |T ((lo + hi).fdiv 2) - t| < cd := by
            rw [← hmeq1, habs2]
            omega
          rw [bisect_loop_chain_gt_upd T t false f lo hi c cd hlohi hgt hupd]
          rw [← hmeq1, hsimp1]
          obtain ⟨ps, hps⟩ := bisect_loop_left_of_k1 T latest t k hmono hk1 hk2 hdk hdk1
            f lo (some ⟨k + 1, T (k + 1)⟩) (|T (k + 1) - t|) h1 h2 (by omega)
            (Or.inl ⟨hcase, rfl, habs2⟩)
          rw [hps, if_pos hcase]
          refine ⟨k + 1, (k + 1) :: ps, rfl, fun h => by omega, fun _ => rfl,
            fun htie => ?_⟩
          have hfc : List.find? (fun p => p == k || p == k + 1) ((k + 1) :: ps)
              = some (k + 1) :=
            List.find?_cons_of_pos ps (by simp)
          exact ⟨Or.inr rfl, hfc⟩
        · by_cases hupd : |T ((lo + hi).fdiv 2) - t| < cd
          · rw [bisect_loop_chain_gt_upd T t false f lo hi c cd hlohi hgt hupd]
            rw [← hmeq1, hsimp1]
            obtain ⟨ps, hps⟩ := bisect_loop_left_of_k1 T latest t k hmono hk1 hk2 hdk hdk1
              f lo (some ⟨k + 1, T (k + 1)⟩) (|T (k + 1) - t|) h1 h2 (by omega)
              (Or.inr ⟨hcase, by rw [habs2]; omega⟩)
            rw [hps, if_neg (by omega)]
            exact ⟨k, (k + 1) :: ps, rfl, fun _ => rfl, fun h => by omega,
              fun htie => absurd htie (by omega)⟩
          · rw [bisect_loop_chain_gt_keep T t false f lo hi c cd hlohi hgt hupd]
            obtain ⟨ps, hps⟩ := bisect_loop_left_of_k1 T latest t k hmono hk1 hk2 hdk hdk1
              f lo c cd h1 h2 (by omega) (Or.inr ⟨hcase, by omega⟩)
            rw [← hmeq1, hsimp1, hps, if_neg (by omega)]
            exact ⟨k, (k + 1) :: ps, rfl, fun _ => rfl, fun h => by omega,
              fun htie => absurd htie (by omega)⟩
      · -- probe strictly right of k + 1: stays straddling
        have hTm : T (k + 1) < T ((lo + hi).fdiv 2) :=
          hmono (k + 1) _ (by omega) (by omega) (by omega)
        have hgt : T ((lo + hi).fdiv 2) > t := by omega
        have habs : |T ((lo + hi).fdiv 2) - t| = T ((lo + hi).fdiv 2) - t :=
          abs_of_pos (by omega)
        have hnotk : ¬ (((lo + hi).fdiv 2 == k || (lo + hi).fdiv 2 == k + 1) = true) := by
          simp
          omega
        by_cases hupd : |T ((lo + hi).fdiv 2) - t| < cd
        · rw [bisect_loop_chain_gt_upd T t false f lo hi c cd hlohi hgt hupd]
          obtain ⟨j, ps, hps, hj1, hj2, hj3⟩ := ih lo ((lo + hi).fdiv 2 - 1)
            (some ⟨(lo + hi).fdiv 2, T ((lo + hi).fdiv 2)⟩) (|T ((lo + hi).fdiv 2) - t|)
            h1 h2 (by omega) (by omega) (by omega) (by rw [habs]; omega)
          rw [hps]
          refine ⟨j, (lo + hi).fdiv 2 :: ps, rfl, hj1, hj2, ?_⟩
          intro htie
          obtain ⟨hj, hfind⟩ := hj3 htie
          have hfc : List.find? (fun p => p == k || p == k + 1)
              ((lo + hi).fdiv 2 :: ps) = List.find? (fun p => p == k || p == k + 1) ps :=
            List.find?_cons_of_neg ps hnotk
          exact ⟨hj, by rw [hfc]; exact hfind⟩
        · rw [bisect_loop_chain_gt_keep T t false f lo hi c cd hlohi hgt hupd]
          obtain ⟨j, ps, hps, hj1, hj2, hj3⟩ := ih lo ((lo + hi).fdiv 2 - 1) c cd
            h1 h2 (by omega) (by omega) (by omega) hcd
          rw [hps]
          refine ⟨j, (lo + hi).fdiv 2 :: ps, rfl, hj1, hj2, ?_⟩
          intro htie
          obtain ⟨hj, hfind⟩ := hj3 htie
          have hfc : List.find? (fun p => p == k || p == k + 1)
              ((lo + hi).fdiv 2 :: ps) = List.find? (fun p => p == k || p == k + 1) ps :=
            List.find?_cons_of_neg ps hnotk
          exact ⟨hj, by rw [hfc]; exact hfind⟩

set_option maxRecDepth 40000 in
/-- Claim C2 counterexample: timestamps `10, 10, 10, 20` on blocks 1-4 are
monotone non-decreasing, and `k = 3` is the unique index with
`T k ≤ 12 < T (k + 1)`.  The claim requires the result to be block 3
(distance 2) or block 4 (distance 8) — hence block 3, the strictly nearer
one.  The code probes block 2 first (same timestamp 10 as block 3, also at
distance 2), keeps it under the strict-improvement rule, and returns block
2, which is neither `k` nor `k + 1`. -/
theorem claim_C2_counterexample :
    (get_closest_block (chainOf exT4) 4 12 false 10).1 = .found ⟨2, 10⟩
    ∧ ClosestResult.found ⟨2, 10⟩ ≠ .found ⟨3, 10⟩
    ∧ ClosestResult.found ⟨2, 10⟩ ≠ .found ⟨4, 20⟩ :=
  ⟨by decide, by decide, by decide⟩

/-- Claim C2 (amended): for a *strictly* increasing timestamp assignment on
`[1, latest_block_number]` (strictness is forced by the counterexample:
with duplicated timestamps the result need not be block `k` or `k + 1`),
target `t` with `T k ≤ t < T (k + 1)`, distances below the `2^256 - 1`
sentinel, and `not_before = false`, the locator returns block `k` when it
is strictly nearer to `t`, block `k + 1` when that one is strictly nearer,
and on an exact tie whichever of blocks `k`, `k + 1` the bisection probes
first (the best candidate is replaced only on a strictly smaller absolute
difference, never on an equal one). -/
theorem claim_C2_amended (T : Int → Int) (latest t k : Int) (fuel : Nat)
    (hmono : ∀ a b : Int, 1 ≤ a → a < b → b ≤ latest → T a < T b)
    (hk1 : 1 ≤ k) (hk2 : k + 1 ≤ latest)
    (hTk : T k ≤ t) (hTk1 : t < T (k + 1))
    (hsent : min (t - T k) (T (k + 1) - t) < 2 ^ 256 - 1)
    (hfuel : latest ≤ (fuel : Int)) :
    (t - T k < T (k + 1) - t →
      (get_closest_block (chainOf T) latest t false fuel).1 = .found ⟨k, T k⟩)
    ∧ (T (k + 1) - t < t - T k →
      (get_closest_block (chainOf T) latest t false fuel).1
        = .found ⟨k + 1, T (k + 1)⟩)
    ∧ (t - T k = T (k + 1) - t →
      ∃ j, (j = k ∨ j = k + 1)
        ∧ ((get_closest_block (chainOf T) latest t false fuel).2.find?
            (fun p => p == k || p == k + 1)) = some j
        ∧ (get_closest_block (chainOf T) latest t false fuel).1
            = .found ⟨j, T j⟩) := by
  rcases eq_or_lt_of_le hTk with heq | hdk
  · have hmono2 : ∀ a b : Int, 1 ≤ a → a ≤ b → b ≤ latest → T a ≤ T b := by
      intro a b ha hab hb
      rcases eq_or_lt_of_le hab with h | h
      · rw [h]
      · exact le_of_lt (hmono a b ha h hb)
    obtain ⟨b, ps, hb, hTb, hb1, hb2, hps⟩ :=
      bisect_loop_exact T latest t false hmono2 fuel 1 latest none (2 ^ 256 - 1)
        le_rfl le_rfl ⟨k, by omega, by omega, heq⟩ (by omega)
    have hbk : b = k := by
      by_contra hne
      rcases lt_or_gt_of_ne hne with h | h
      · have := hmono b k hb1 h (by omega)
        omega
      · have hb3 : k + 1 ≤ b := by omega
        have : T (k + 1) ≤ T b := by
          rcases eq_or_lt_of_le hb3 with h2 | h2
          · rw [h2]
          · exact le_of_lt (hmono (k + 1) b (by omega) h2 hb2)
        omega
    refine ⟨?_, ?_, ?_⟩
    · intro _
      rw [get_closest_block, hb, hbk, ← heq]
    · intro h
      exact absurd h (by omega)
    · intro htie
      exact absurd htie (by omega)
  · obtain ⟨j, ps, hps, hj1, hj2, hj3⟩ :=
      bisect_loop_straddle T latest t k hmono hk1 hk2 hdk hTk1 fuel 1 latest none
        (2 ^ 256 - 1) le_rfl (by omega) (by omega) le_rfl (by omega) hsent
    refine ⟨?_, ?_, ?_⟩
    · intro h
      rw [get_closest_block, hps, hj1 h]
    · intro h
      rw [get_closest_block, hps, hj2 h]
    · intro htie
      obtain ⟨hj, hfind⟩ := hj3 htie
      exact ⟨j, hj, by rw [get_closest_block, hps]; exact hfind,
        by rw [get_closest_block, hps]⟩

/-- Witness for C2 (amended) on `T n = 1000 * n` with 4 blocks, target 2300:
`k = 2`, the distances are 300 and 700, so block 2 is returned. -/
theorem claim_C2_witness :
    (get_closest_block (chainOf linT) 4 2300 false 10).1 = .found ⟨2, 2000⟩ := by
  have h := claim_C2_amended linT 4 2300 2 10
    (fun a b _ hab _ => by simp only [linT]; omega)
    (by norm_num) (by norm_num)
    (by norm_num [linT]) (by norm_num [linT])
    (by simp only [linT]; norm_num)
    (by norm_num)
  exact h.1 (by norm_num [linT])
